import Mathlib

/-!
Verification development for the hybrid factor-graph container of
`gtsam/hybrid/HybridFactorGraph.{h,cpp}`: a container that files factors
into three typed sub-collections (continuous, discrete, discrete-continuous),
linearizes continuous factors, and folds the mixture factors' finite-domain
decision trees (FDTs) into a single decision tree of linear-factor
collections.

The container, its routing (`push_back`, `push_discrete`, `push_dc`), the
queries (`size`, `nrDiscreteFactors`, `nrDcFactors`, `discreteKeys`,
`equals`, `clear`), the linearization pass and the `sum` fold are embedded
from the source files.  Parts of the wider library that the source calls
but that are not part of the two source files (the `FactorGraph` base-class
storage, the per-sub-graph `discreteKeys`, the decision-tree merge
`Sum::operator+=`, and the external linearization primitives) are modelled
from the specification and say so in their doc comments.
-/

set_option autoImplicit false

namespace gtsam

/-- A discrete key: a variable identifier together with its cardinality
(mirrors `DiscreteKey = std::pair<Key, size_t>`). -/
structure DiscreteKey where
  key : Nat
  card : Nat
deriving DecidableEq, Repr

/-- An assignment of a state index to every discrete variable identifier. -/
def Assignment : Type := Nat → Nat

/-- A linear (Gaussian) factor, abstracted to an identifier plus one
numeric coefficient standing for its floating-point content. -/
structure GaussianFactor where
  id : Nat
  val : Rat
deriving DecidableEq, Repr

/-- A collection of linear factors (`GaussianFactorGraph`). -/
abbrev GaussianFactorGraph : Type := List GaussianFactor

/-- Finite-domain decision tree over leaf type `V`: a discrete scope
together with the function it denotes from joint discrete assignments to
leaf values (the value depends only on the variables in scope). -/
structure FDT (V : Type) where
  scope : List DiscreteKey
  eval : Assignment → V

/-- The discrete-continuous part a factor may carry: either a Gaussian
mixture (`DCGaussianMixtureFactor`, owning an FDT of linear factors), or a
plain (nonlinear) DC factor with its discrete scope. -/
inductive DCPart where
  | mixtureP (tree : FDT GaussianFactor)
  | plainDC (dKeys : List DiscreteKey)

/-- A factor object as the router sees it: `isDiscreteFactor` says whether
it casts to `DiscreteFactor` (with `keys` its discrete keys) and `dc` is
its `DCFactor` part when it casts to one.  `id` and `val` stand for the
identity and numeric content used by tolerance comparison. -/
structure Factor where
  id : Nat
  val : Rat
  keys : List DiscreteKey
  isDiscreteFactor : Bool
  dc : Option DCPart

/-- Whether a factor casts to `DCFactor` (succeeds `dynamic_pointer_cast<DCFactor>`). -/
def Factor.isDC (f : Factor) : Bool := f.dc.isSome

/-- Whether a factor casts to `DCGaussianMixtureFactor`. -/
def Factor.isMixture (f : Factor) : Bool :=
  match f.dc with
  | some (.mixtureP _) => true
  | _ => false

/-- The mixture decision tree of a factor, when it is a `DCGaussianMixtureFactor`. -/
def Factor.mixtureTree (f : Factor) : Option (FDT GaussianFactor) :=
  match f.dc with
  | some (.mixtureP t) => some t
  | _ => none

/-- The discrete keys of a factor in its `DCFactor` role: a mixture's are
its tree's scope, a plain DC factor carries them directly. -/
def Factor.dcKeys (f : Factor) : List DiscreteKey :=
  match f.dc with
  | some (.mixtureP t) => t.scope
  | some (.plainDC ks) => ks
  | none => []

/-- The hybrid factor graph state: the inherited flat `FactorGraph<Factor>`
storage plus the three typed sub-collections
(`factorGraph_`, `discreteGraph_`, `dcGraph_`). -/
structure HybridFactorGraph where
  base : List Factor
  factorGraph_ : List Factor
  discreteGraph_ : List Factor
  dcGraph_ : List Factor

namespace HybridFactorGraph

/-- The default-constructed, empty hybrid factor graph. -/
def empty : HybridFactorGraph := ⟨[], [], [], []⟩

/-- The bulk constructor `HybridFactorGraph(factorGraph, discreteGraph, dcGraph)`:
stores the three sub-graphs and pushes each of them, in that order, onto the
inherited flat list. -/
def mk3 (factorGraph discreteGraph dcGraph : List Factor) : HybridFactorGraph :=
  ⟨factorGraph ++ discreteGraph ++ dcGraph, factorGraph, discreteGraph, dcGraph⟩

/-- Base-class `size()`: the number of factors in the inherited flat list.
Modelled from the spec: the `FactorGraph` base class (not among the source
files) keeps a unified flat list preserving insertion order, and `size`,
indexing and base equality are defined over it. -/
def size (g : HybridFactorGraph) : Nat := g.base.length

/-- Base-class `operator[]`: indexes the inherited flat list.  Modelled from
the spec (see `size`). -/
def getFactor (g : HybridFactorGraph) (i : Nat) : Option Factor := g.base.get? i

/-- The total number of factors in the discrete factor graph. -/
def nrDiscreteFactors (g : HybridFactorGraph) : Nat := g.discreteGraph_.length

/-- The total number of factors in the DC factor graph. -/
def nrDcFactors (g : HybridFactorGraph) : Nat := g.dcGraph_.length

/-- `push_discrete`: appends the factor to the internal discrete graph and to
the inherited flat list (`Base::push_back`). -/
def push_discrete (g : HybridFactorGraph) (f : Factor) : HybridFactorGraph :=
  { g with discreteGraph_ := g.discreteGraph_ ++ [f], base := g.base ++ [f] }

/-- `push_dc`: appends the factor to the internal DC graph and to the
inherited flat list (`Base::push_back`). -/
def push_dc (g : HybridFactorGraph) (f : Factor) : HybridFactorGraph :=
  { g with dcGraph_ := g.dcGraph_ ++ [f], base := g.base ++ [f] }

/-- `push_back(sharedFactor)`: routes the factor by capability — if it casts
to `DiscreteFactor` it is pushed to the discrete graph, and (independently)
if it casts to `DCFactor` it is pushed to the DC graph. -/
def push_back (g : HybridFactorGraph) (f : Factor) : HybridFactorGraph :=
  let g1 := if f.isDiscreteFactor = true then g.push_discrete f else g
  if f.isDC = true then g1.push_dc f else g1

/-- Iterator-range `push_back`: routes each factor of the list in order. -/
def pushBackAll (g : HybridFactorGraph) (fs : List Factor) : HybridFactorGraph :=
  fs.foldl push_back g

/-- `clear()`: replaces the three internal factor graphs by new empty
instances.  The inherited flat list is not touched. -/
def clear (g : HybridFactorGraph) : HybridFactorGraph :=
  { g with discreteGraph_ := [], dcGraph_ := [], factorGraph_ := [] }

end HybridFactorGraph

/-- Inserts a key at the back unless it is already present (the
`std::find`-guarded `push_back` of `discreteKeys`). -/
def insertKey (res : List DiscreteKey) (k : DiscreteKey) : List DiscreteKey :=
  if k ∈ res then res else res ++ [k]

/-- Folds `insertKey` over a list: appends the new keys in order of first
appearance. -/
def insertAllKeys (res : List DiscreteKey) (ks : List DiscreteKey) : List DiscreteKey :=
  ks.foldl insertKey res

/-- Modelled from the spec: `DiscreteFactorGraph::discreteKeys` (not among
the source files) returns the discrete variables referenced directly by the
discrete factors, in order of first appearance, without duplicates. -/
def discreteGraphKeys (fs : List Factor) : List DiscreteKey :=
  insertAllKeys [] (fs.flatMap Factor.keys)

/-- Modelled from the spec: `DCFactorGraph::discreteKeys` (not among the
source files) returns the discrete variables referenced by the DC factors,
in order of first appearance, without duplicates. -/
def dcGraphKeys (fs : List Factor) : List DiscreteKey :=
  insertAllKeys [] (fs.flatMap Factor.dcKeys)

/-- `HybridFactorGraph::discreteKeys`: starts from the discrete graph's
keys, then appends each DC-graph key not already present. -/
def HybridFactorGraph.discreteKeys (g : HybridFactorGraph) : List DiscreteKey :=
  insertAllKeys (discreteGraphKeys g.discreteGraph_) (dcGraphKeys g.dcGraph_)

/-- The sum type `DCGaussianMixtureFactor::Sum`: a decision tree of
`GaussianFactorGraph`s. -/
abbrev Sum : Type := FDT GaussianFactorGraph

/-- The default-constructed sum: no discrete scope, the single leaf is the
empty collection of linear factors. -/
def Sum.empty : Sum := ⟨[], fun _ => []⟩

/-- Modelled from the spec: the decision-tree merge `sum += *mixtureFactor`
(in `DCGaussianMixtureFactor`, not among the source files).  The scope of
the result is the union of the operands' scopes (first appearance order);
at every joint assignment the resulting leaf is the accumulator's leaf
with the incoming mixture's leaf for that assignment appended. -/
def Sum.addMixture (s : Sum) (t : FDT GaussianFactor) : Sum :=
  ⟨insertAllKeys s.scope t.scope, fun a => s.eval a ++ [t.eval a]⟩

/-- The exception message thrown by `HybridFactorGraph::sum` (the
`UnsupportedFactorKind` condition). -/
def sumErrorMsg : String :=
  "HybridFactorGraph::sum can only handle DCGaussianMixtureFactors."

/-- The loop body of `sum`: walks the DC graph in order; a
`DCGaussianMixtureFactor` is merged into the accumulator, anything else
throws. -/
def sumLoop : List Factor → Sum → Except String Sum
  | [], acc => .ok acc
  | f :: fs, acc =>
    match f.dc with
    | some (.mixtureP t) => sumLoop fs (acc.addMixture t)
    | _ => .error sumErrorMsg

/-- `HybridFactorGraph::sum`: folds all mixture factors of the DC graph
into one decision tree of `GaussianFactorGraph`s, starting from the
default-constructed sum. -/
def HybridFactorGraph.sum (g : HybridFactorGraph) : Except String Sum :=
  sumLoop g.dcGraph_ Sum.empty

/-- The mixture trees of the DC sub-collection, in insertion order. -/
def mixtureTrees (fs : List Factor) : List (FDT GaussianFactor) :=
  fs.filterMap Factor.mixtureTree

/-- An evaluation point for the continuous variables (`Values`), abstracted
to a numeric value per identifier. -/
def Values : Type := Nat → Rat

/-- Modelled from the spec: the external linearization primitive for a
continuous factor (`NonlinearFactorGraph::linearize` leaf operation, not
among the source files) — replaces the factor by its linear approximation
at the evaluation point. -/
def Factor.linearizeCont (f : Factor) (p : Values) : Factor :=
  { f with val := p f.id }

/-- Modelled from the spec: `DCFactor::linearize` (not among the source
files) for a non-mixture DC factor — linearizes each branch at the
evaluation point while preserving the factor's discrete scope exactly,
yielding a mixture of linear factors. -/
def Factor.linearizeAt (f : Factor) (p : Values) : Factor :=
  match f.dc with
  | some (.plainDC ks) => { f with dc := some (.mixtureP ⟨ks, fun _ => ⟨f.id, p f.id⟩⟩) }
  | _ => f

/-- `HybridFactorGraph::linearize(continuousValues)`: linearizes the
continuous factors, passes `DCGaussianMixtureFactor`s through unchanged,
linearizes every other DC factor at the point, and builds the resulting
container with the bulk constructor from the linearized continuous graph,
the unchanged discrete graph and the new DC graph. -/
def HybridFactorGraph.linearize (g : HybridFactorGraph) (p : Values) : HybridFactorGraph :=
  let gaussianFactorGraph := g.factorGraph_.map (Factor.linearizeCont · p)
  let linearizedDcFactors := g.dcGraph_.foldl
    (fun acc f => if f.isMixture = true then acc ++ [f] else acc ++ [f.linearizeAt p]) []
  HybridFactorGraph.mk3 gaussianFactorGraph g.discreteGraph_ linearizedDcFactors

/-- Modelled from the spec: tolerance comparison of linear factors —
identity matches and floating-point content within tolerance. -/
def GaussianFactor.eqTol (x y : GaussianFactor) (tol : Rat) : Prop :=
  x.id = y.id ∧ |x.val - y.val| ≤ tol

/-- Modelled from the spec: tolerance comparison of the DC parts of two
factors; mixture trees must agree in scope and, leafwise within tolerance,
at every assignment. -/
def DCPart.eqTol : Option DCPart → Option DCPart → Rat → Prop
  | none, none, _ => True
  | some (.plainDC ks1), some (.plainDC ks2), _ => ks1 = ks2
  | some (.mixtureP t1), some (.mixtureP t2), tol =>
      t1.scope = t2.scope ∧ ∀ a, (t1.eval a).eqTol (t2.eval a) tol
  | _, _, _ => False

/-- Modelled from the spec: `Factor::equals` with tolerance — all structural
content equal, numeric content within tolerance. -/
def Factor.equalsTol (f g : Factor) (tol : Rat) : Prop :=
  f.id = g.id ∧ |f.val - g.val| ≤ tol ∧ f.keys = g.keys ∧
    f.isDiscreteFactor = g.isDiscreteFactor ∧ DCPart.eqTol f.dc g.dc tol

/-- Modelled from the spec: `FactorGraph::equals` (not among the source
files) — the two factor lists have equal size and are equal element-wise,
in insertion order, under the tolerance. -/
def graphEquals (xs ys : List Factor) (tol : Rat) : Prop :=
  List.Forall₂ (Factor.equalsTol · · tol) xs ys

/-- `HybridFactorGraph::equals`: base-class equality on the flat list and
equality of the three internal sub-graphs, all under the same tolerance. -/
def HybridFactorGraph.equals (g1 g2 : HybridFactorGraph) (tol : Rat) : Prop :=
  graphEquals g1.base g2.base tol ∧
  graphEquals g1.discreteGraph_ g2.discreteGraph_ tol ∧
  graphEquals g1.dcGraph_ g2.dcGraph_ tol ∧
  graphEquals g1.factorGraph_ g2.factorGraph_ tol

/-- One mutation of the container through its public add interface. -/
inductive HFGOp where
  | pushDiscreteOp (f : Factor)
  | pushDcOp (f : Factor)
  | pushBackOp (f : Factor)

/-- Applies one add operation to the container. -/
def HFGOp.apply (g : HybridFactorGraph) : HFGOp → HybridFactorGraph
  | .pushDiscreteOp f => g.push_discrete f
  | .pushDcOp f => g.push_dc f
  | .pushBackOp f => g.push_back f

/-- The factors an operation files into typed sub-collections, in filing
order; a `push_back` of a factor with both capabilities files it twice. -/
def HFGOp.filings : HFGOp → List Factor
  | .pushDiscreteOp f => [f]
  | .pushDcOp f => [f]
  | .pushBackOp f =>
      (if f.isDiscreteFactor = true then [f] else []) ++ (if f.isDC = true then [f] else [])

/-- Applies a sequence of add operations in order. -/
def applyOps (g : HybridFactorGraph) (ops : List HFGOp) : HybridFactorGraph :=
  ops.foldl HFGOp.apply g

/-- Following the spec's words (for comparison with `discreteKeys`): the
union, duplicates removed and order of first appearance kept, of the
discrete variables of the discrete sub-collection and those of the DC
sub-collection. -/
def specDiscreteScope (g : HybridFactorGraph) : List DiscreteKey :=
  insertAllKeys []
    (g.discreteGraph_.flatMap Factor.keys ++ g.dcGraph_.flatMap Factor.dcKeys)

/-- Following the spec's words (for comparison with `equals`): the two
factor lists have matching sizes and are equal element-wise, in insertion
order, under the tolerance. -/
def specElementwiseEqual (xs ys : List Factor) (tol : Rat) : Prop :=
  xs.length = ys.length ∧
    ∀ i (h1 : i < xs.length) (h2 : i < ys.length),
      (xs.get ⟨i, h1⟩).equalsTol (ys.get ⟨i, h2⟩) tol

/-- Following the spec's words (for comparison with `equals`): all three
typed sub-collections pairwise equal under the tolerance, element-wise in
insertion order, with matching sizes. -/
def specSubCollectionsEqual (g1 g2 : HybridFactorGraph) (tol : Rat) : Prop :=
  specElementwiseEqual g1.discreteGraph_ g2.discreteGraph_ tol ∧
  specElementwiseEqual g1.dcGraph_ g2.dcGraph_ tol ∧
  specElementwiseEqual g1.factorGraph_ g2.factorGraph_ tol

/-- Discrete key `A` of the examples (cardinality 2). -/
def keyA : DiscreteKey := ⟨0, 2⟩

/-- Discrete key `B` of the examples (cardinality 3). -/
def keyB : DiscreteKey := ⟨1, 3⟩

/-- Example mixture factor over key `A`. -/
def mixFactor1 : Factor :=
  { id := 10, val := 0, keys := [], isDiscreteFactor := false,
    dc := some (.mixtureP ⟨[keyA], fun a => ⟨100 + a 0, 0⟩⟩) }

/-- Example mixture factor over key `B`. -/
def mixFactor2 : Factor :=
  { id := 11, val := 0, keys := [], isDiscreteFactor := false,
    dc := some (.mixtureP ⟨[keyB], fun a => ⟨200 + a 1, 0⟩⟩) }

/-- Example container whose DC sub-collection holds the two mixtures. -/
def gMix : HybridFactorGraph := HybridFactorGraph.mk3 [] [] [mixFactor1, mixFactor2]

/-- Example malformed entry: a DC factor that is not a Gaussian mixture. -/
def plainDcFactor : Factor :=
  { id := 20, val := 0, keys := [], isDiscreteFactor := false,
    dc := some (.plainDC [keyA]) }

/-- Example container whose DC sub-collection holds a non-mixture entry. -/
def gBad : HybridFactorGraph := HybridFactorGraph.mk3 [] [] [plainDcFactor]

/-- Example factor satisfying both the discrete and the DC capability. -/
def dualFactor : Factor :=
  { id := 30, val := 0, keys := [keyA], isDiscreteFactor := true,
    dc := some (.plainDC [keyB]) }

/-- Example purely discrete factor. -/
def discFactor : Factor :=
  { id := 31, val := 0, keys := [keyA], isDiscreteFactor := true, dc := none }

/-- Example factor satisfying no capability. -/
def noCapFactor : Factor :=
  { id := 32, val := 0, keys := [], isDiscreteFactor := false, dc := none }

/-- Example container: one discrete factor pushed into an empty container. -/
def gDisc : HybridFactorGraph := HybridFactorGraph.empty.push_discrete discFactor

/-- Example container: DC factor pushed first, then the discrete factor. -/
def gOrderA : HybridFactorGraph :=
  (HybridFactorGraph.empty.push_dc plainDcFactor).push_discrete discFactor

/-- Example container: discrete factor pushed first, then the DC factor. -/
def gOrderB : HybridFactorGraph :=
  (HybridFactorGraph.empty.push_discrete discFactor).push_dc plainDcFactor

theorem mem_insertKey {res : List DiscreteKey} {k x : DiscreteKey} :
    x ∈ insertKey res k ↔ x ∈ res ∨ x = k := by
  by_cases h : k ∈ res <;> simp only [insertKey, h, if_true, if_false, List.mem_append,
    List.mem_singleton]
  exact ⟨Or.inl, fun hx => hx.elim id fun he => he ▸ h⟩

theorem mem_insertAllKeys :
    ∀ {ks res : List DiscreteKey} {x : DiscreteKey},
      x ∈ insertAllKeys res ks ↔ x ∈ res ∨ x ∈ ks := by
  intro ks
  induction ks with
  | nil => intro res x; simp [insertAllKeys]
  | cons k ks ih =>
      intro res x
      show x ∈ insertAllKeys (insertKey res k) ks ↔ _
      rw [ih, mem_insertKey]
      simp only [List.mem_cons]
      tauto

theorem nodup_insertKey {res : List DiscreteKey} {k : DiscreteKey}
    (h : res.Nodup) : (insertKey res k).Nodup := by
  unfold insertKey
  split
  · exact h
  · next hk => simpa [List.nodup_append] using ⟨h, hk⟩

theorem nodup_insertAllKeys :
    ∀ {ks res : List DiscreteKey}, res.Nodup → (insertAllKeys res ks).Nodup := by
  intro ks
  induction ks with
  | nil => intro res h; exact h
  | cons k ks ih =>
      intro res h
      exact ih (nodup_insertKey h)

theorem insertAllKeys_append {res xs ys : List DiscreteKey} :
    insertAllKeys res (xs ++ ys) = insertAllKeys (insertAllKeys res xs) ys :=
  List.foldl_append _ _ _ _

theorem insertAllKeys_insertKey {acc B : List DiscreteKey} {y : DiscreteKey} :
    insertAllKeys acc (insertKey B y) = insertKey (insertAllKeys acc B) y := by
  by_cases h : y ∈ B
  · rw [insertKey, if_pos h]
    have hy : y ∈ insertAllKeys acc B := mem_insertAllKeys.mpr (Or.inr h)
    rw [insertKey, if_pos hy]
  · rw [insertKey, if_neg h, insertAllKeys_append]
    rfl

theorem insertAllKeys_insertAllKeys :
    ∀ {ys B acc : List DiscreteKey},
      insertAllKeys acc (insertAllKeys B ys) = insertAllKeys (insertAllKeys acc B) ys := by
  intro ys
  induction ys with
  | nil => intro B acc; rfl
  | cons y ys ih =>
      intro B acc
      show insertAllKeys acc (insertAllKeys (insertKey B y) ys)
          = insertAllKeys (insertKey (insertAllKeys acc B) y) ys
      rw [ih, insertAllKeys_insertKey]

/-- C5: `discreteKeys()` returns the union, duplicates removed and order of
first appearance preserved, of the discrete variables of the discrete
sub-collection and those of the DC (mixture) sub-collection, and never
contains the same discrete variable twice. -/
theorem discreteKeys_is_dedup_union (g : HybridFactorGraph) :
    g.discreteKeys = specDiscreteScope g ∧ g.discreteKeys.Nodup := by
  have hsrc : g.discreteKeys
      = insertAllKeys (discreteGraphKeys g.discreteGraph_)
          (g.dcGraph_.flatMap Factor.dcKeys) := by
    show insertAllKeys (discreteGraphKeys g.discreteGraph_)
        (insertAllKeys [] (g.dcGraph_.flatMap Factor.dcKeys)) = _
    rw [insertAllKeys_insertAllKeys]
    rfl
  have hspec : specDiscreteScope g
      = insertAllKeys (discreteGraphKeys g.discreteGraph_)
          (g.dcGraph_.flatMap Factor.dcKeys) := by
    show insertAllKeys []
        (g.discreteGraph_.flatMap Factor.keys ++ g.dcGraph_.flatMap Factor.dcKeys) = _
    rw [insertAllKeys_append]
    rfl
  refine ⟨hsrc.trans hspec.symm, ?_⟩
  rw [hsrc]
  exact nodup_insertAllKeys (nodup_insertAllKeys List.nodup_nil)

/-- C4: `push_back` files a shared factor into every sub-collection whose
capability it satisfies (both, for a factor that is discrete and DC), it
never touches the continuous sub-collection, and pushing the same factor
twice leaves it present twice in each matching sub-collection, in insertion
order, without deduplication. -/
theorem push_back_files_by_capability (g : HybridFactorGraph) (f : Factor) :
    (g.push_back f).discreteGraph_
        = g.discreteGraph_ ++ (if f.isDiscreteFactor = true then [f] else []) ∧
    (g.push_back f).dcGraph_ = g.dcGraph_ ++ (if f.isDC = true then [f] else []) ∧
    (g.push_back f).factorGraph_ = g.factorGraph_ ∧
    ((g.push_back f).push_back f).discreteGraph_
        = g.discreteGraph_ ++ (if f.isDiscreteFactor = true then [f, f] else []) ∧
    ((g.push_back f).push_back f).dcGraph_
        = g.dcGraph_ ++ (if f.isDC = true then [f, f] else []) := by
  by_cases hd : f.isDiscreteFactor = true <;> by_cases hc : f.isDC = true <;>
    simp [HybridFactorGraph.push_back, HybridFactorGraph.push_discrete,
      HybridFactorGraph.push_dc, hd, hc]

/-- C9: a factor satisfying neither the discrete nor the DC capability is
silently dropped — `push_back` returns normally and leaves the container
unchanged. -/
theorem push_back_no_capability_is_noop (g : HybridFactorGraph) (f : Factor)
    (hd : f.isDiscreteFactor = false) (hc : f.dc = none) :
    g.push_back f = g := by
  simp [HybridFactorGraph.push_back, hd, Factor.isDC, hc]

/-- Witness for C9 at a concrete no-capability factor and container. -/
theorem push_back_no_capability_is_noop_witness :
    noCapFactor.isDiscreteFactor = false ∧ noCapFactor.dc = none ∧
      gDisc.push_back noCapFactor = gDisc :=
  ⟨rfl, rfl, push_back_no_capability_is_noop gDisc noCapFactor rfl rfl⟩

/-- C7 counterexample: after pushing one discrete factor and calling
`clear()`, the per-sub-collection counts are `0` but `size()` — defined on
the inherited flat list, which `clear()` does not touch — is still `1`,
not `0` as the claim states. -/
theorem clear_size_counterexample :
    gDisc.clear.nrDiscreteFactors = 0 ∧ gDisc.clear.nrDcFactors = 0 ∧
      gDisc.clear.size = 1 ∧ gDisc.clear.size ≠ 0 :=
  ⟨rfl, rfl, rfl, by decide⟩

/-- C7 amended: `clear()` empties the three typed sub-collections (so both
per-sub-collection counts are `0`), but leaves the inherited flat list —
and with it `size()` — unchanged. -/
theorem clear_empties_subcollections_keeps_base (g : HybridFactorGraph) :
    g.clear.discreteGraph_ = [] ∧ g.clear.dcGraph_ = [] ∧ g.clear.factorGraph_ = [] ∧
    g.clear.nrDiscreteFactors = 0 ∧ g.clear.nrDcFactors = 0 ∧
    g.clear.base = g.base ∧ g.clear.size = g.size :=
  ⟨rfl, rfl, rfl, rfl, rfl, rfl, rfl⟩

/-- C3 counterexample: routing one factor that is both a discrete and a DC
factor files one distinct object into two sub-collections, yet `size()`
returns `2`, not `1` — the flat list records the factor once per filing. -/
theorem size_counts_dual_filing_twice :
    (HybridFactorGraph.empty.push_back dualFactor).discreteGraph_ = [dualFactor] ∧
    (HybridFactorGraph.empty.push_back dualFactor).dcGraph_ = [dualFactor] ∧
    (HybridFactorGraph.empty.push_back dualFactor).factorGraph_ = [] ∧
    (HybridFactorGraph.empty.push_back dualFactor).size = 2 ∧
    (HybridFactorGraph.empty.push_back dualFactor).size ≠ 1 :=
  ⟨rfl, rfl, rfl, rfl, by decide⟩

theorem push_back_lengths (g : HybridFactorGraph) (f : Factor) :
    (g.push_back f).base.length
        = g.base.length + ((if f.isDiscreteFactor = true then 1 else 0)
            + (if f.isDC = true then 1 else 0)) ∧
    (g.push_back f).discreteGraph_.length
        = g.discreteGraph_.length + (if f.isDiscreteFactor = true then 1 else 0) ∧
    (g.push_back f).dcGraph_.length
        = g.dcGraph_.length + (if f.isDC = true then 1 else 0) ∧
    (g.push_back f).factorGraph_ = g.factorGraph_ := by
  by_cases hd : f.isDiscreteFactor = true <;> by_cases hc : f.isDC = true <;>
    simp [HybridFactorGraph.push_back, HybridFactorGraph.push_discrete,
      HybridFactorGraph.push_dc, hd, hc]

theorem pushBackAll_invariant :
    ∀ (fs : List Factor) (g : HybridFactorGraph),
      g.base.length
          = g.discreteGraph_.length + g.dcGraph_.length + g.factorGraph_.length →
      (g.pushBackAll fs).base.length
        = (g.pushBackAll fs).discreteGraph_.length + (g.pushBackAll fs).dcGraph_.length
          + (g.pushBackAll fs).factorGraph_.length := by
  intro fs
  induction fs with
  | nil => intro g h; exact h
  | cons f fs ih =>
      intro g h
      show (HybridFactorGraph.pushBackAll (g.push_back f) fs).base.length = _
      apply ih
      obtain ⟨h1, h2, h3, h4⟩ := push_back_lengths g f
      rw [h1, h2, h3, h4, h]
      omega

theorem pushBackAll_factorGraph :
    ∀ (fs : List Factor) (g : HybridFactorGraph),
      (g.pushBackAll fs).factorGraph_ = g.factorGraph_ := by
  intro fs
  induction fs with
  | nil => intro g; rfl
  | cons f fs ih =>
      intro g
      show (HybridFactorGraph.pushBackAll (g.push_back f) fs).factorGraph_ = _
      rw [ih, (push_back_lengths g f).2.2.2]

/-- C3 amended: for every sequence of factors added through the router,
`size()` equals the sum of the per-sub-collection counts — a factor filed
into two sub-collections is counted once per filing, not once — while
`nrDiscreteFactors()` and `nrDcFactors()` report the separate
per-sub-collection counts. -/
theorem size_is_sum_of_subcollection_counts (fs : List Factor) :
    (HybridFactorGraph.empty.pushBackAll fs).size
      = (HybridFactorGraph.empty.pushBackAll fs).nrDiscreteFactors
        + (HybridFactorGraph.empty.pushBackAll fs).nrDcFactors ∧
    (HybridFactorGraph.empty.pushBackAll fs).nrDiscreteFactors
      = (HybridFactorGraph.empty.pushBackAll fs).discreteGraph_.length ∧
    (HybridFactorGraph.empty.pushBackAll fs).nrDcFactors
      = (HybridFactorGraph.empty.pushBackAll fs).dcGraph_.length := by
  refine ⟨?_, rfl, rfl⟩
  have h := pushBackAll_invariant fs HybridFactorGraph.empty rfl
  have hfg := pushBackAll_factorGraph fs HybridFactorGraph.empty
  show (HybridFactorGraph.empty.pushBackAll fs).base.length = _
  rw [h, hfg]
  rfl

theorem apply_base (g : HybridFactorGraph) (op : HFGOp) :
    (op.apply g).base = g.base ++ op.filings := by
  cases op with
  | pushDiscreteOp f => rfl
  | pushDcOp f => rfl
  | pushBackOp f =>
      by_cases hd : f.isDiscreteFactor = true <;> by_cases hc : f.isDC = true <;>
        simp [HFGOp.apply, HFGOp.filings, HybridFactorGraph.push_back,
          HybridFactorGraph.push_discrete, HybridFactorGraph.push_dc, hd, hc]

theorem applyOps_base :
    ∀ (ops : List HFGOp) (g : HybridFactorGraph),
      (applyOps g ops).base = g.base ++ ops.flatMap HFGOp.filings := by
  intro ops
  induction ops with
  | nil => intro g; simp [applyOps]
  | cons op ops ih =>
      intro g
      show (applyOps (op.apply g) ops).base = _
      rw [ih, apply_base, List.flatMap_cons, List.append_assoc]

/-- C10: starting from the bulk constructor, every add operation appends
each factor it files into a typed sub-collection to the inherited flat
list as well, so the flat list is the constructor's three sub-graphs in
order followed by the filed factors in filing order (a factor filed into
two sub-collections appears twice); `size()`, `operator[]` and the
base-class part of `equals` are defined over this flat list. -/
theorem base_is_filings_in_order (factorGraph discreteGraph dcGraph : List Factor)
    (ops : List HFGOp) :
    (applyOps (HybridFactorGraph.mk3 factorGraph discreteGraph dcGraph) ops).base
      = (factorGraph ++ discreteGraph ++ dcGraph) ++ ops.flatMap HFGOp.filings ∧
    (∀ g : HybridFactorGraph, g.size = g.base.length) ∧
    (∀ (g : HybridFactorGraph) (i : Nat), g.getFactor i = g.base.get? i) ∧
    (∀ (g1 g2 : HybridFactorGraph) (tol : Rat),
      g1.equals g2 tol → graphEquals g1.base g2.base tol) := by
  refine ⟨applyOps_base ops _, fun _ => rfl, fun _ _ => rfl, fun _ _ _ h => h.1⟩

theorem sumLoop_ok_of_all_mixture :
    ∀ (fs : List Factor) (acc : Sum), (∀ f ∈ fs, f.isMixture = true) →
      sumLoop fs acc = .ok ((mixtureTrees fs).foldl Sum.addMixture acc) := by
  intro fs
  induction fs with
  | nil => intro acc _; rfl
  | cons f fs ih =>
      intro acc h
      have hf : f.isMixture = true := h f (List.mem_cons_self f fs)
      cases hdc : f.dc with
      | none => rw [Factor.isMixture, hdc] at hf; cases hf
      | some part =>
          cases part with
          | plainDC ks => rw [Factor.isMixture, hdc] at hf; cases hf
          | mixtureP t =>
              have hstep : sumLoop (f :: fs) acc = sumLoop fs (acc.addMixture t) := by
                simp [sumLoop, hdc]
              rw [hstep, ih _ (fun x hx => h x (List.mem_cons_of_mem f hx))]
              simp [mixtureTrees, List.filterMap_cons, Factor.mixtureTree, hdc]

theorem eval_foldl_addMixture :
    ∀ (ts : List (FDT GaussianFactor)) (acc : Sum) (a : Assignment),
      (ts.foldl Sum.addMixture acc).eval a
        = acc.eval a ++ ts.map (fun t => t.eval a) := by
  intro ts
  induction ts with
  | nil => intro acc a; simp
  | cons t ts ih =>
      intro acc a
      rw [List.foldl_cons, ih, List.map_cons]
      show (Sum.addMixture acc t).eval a ++ _ = _
      simp [Sum.addMixture]

/-- C1: when every entry of the DC sub-collection is a mixture factor,
`sum()` returns exactly the fold, in insertion order, of the mixture
decision trees into an accumulator that starts as the empty tree (no
scope, one leaf: the empty collection) via pairwise merge with
append-to-collection; every leaf of the result is the collection of the
linear factors each mixture contributes at that joint discrete
assignment. -/
theorem sum_is_ordered_fold_of_mixtures (g : HybridFactorGraph)
    (h : ∀ f ∈ g.dcGraph_, f.isMixture = true) :
    g.sum = .ok ((mixtureTrees g.dcGraph_).foldl Sum.addMixture Sum.empty) ∧
    ∀ t : Sum, g.sum = .ok t →
      ∀ a : Assignment,
        t.eval a = (mixtureTrees g.dcGraph_).map (fun tr => tr.eval a) := by
  have h1 := sumLoop_ok_of_all_mixture g.dcGraph_ Sum.empty h
  refine ⟨h1, ?_⟩
  intro t ht a
  rw [show g.sum = sumLoop g.dcGraph_ Sum.empty from rfl, h1] at ht
  injection ht with ht
  rw [← ht, eval_foldl_addMixture]
  rfl

/-- Witness for C1 at a concrete container holding two mixtures with
different discrete scopes. -/
theorem sum_is_ordered_fold_of_mixtures_witness :
    (∀ f ∈ gMix.dcGraph_, f.isMixture = true) ∧
    (gMix.sum = .ok ((mixtureTrees gMix.dcGraph_).foldl Sum.addMixture Sum.empty) ∧
      ∀ t : Sum, gMix.sum = .ok t →
        ∀ a : Assignment,
          t.eval a = (mixtureTrees gMix.dcGraph_).map (fun tr => tr.eval a)) := by
  have hmix : ∀ f ∈ gMix.dcGraph_, f.isMixture = true := by
    intro f hf
    have hf' : f = mixFactor1 ∨ f = mixFactor2 := by
      simpa [gMix, HybridFactorGraph.mk3] using hf
    rcases hf' with rfl | rfl <;> rfl
  exact ⟨hmix, sum_is_ordered_fold_of_mixtures gMix hmix⟩

theorem sumLoop_error_iff :
    ∀ (fs : List Factor) (acc : Sum),
      ((∃ e, sumLoop fs acc = .error e) ↔ ∃ f ∈ fs, f.isMixture = false) ∧
      (∀ e, sumLoop fs acc = .error e → e = sumErrorMsg) := by
  intro fs
  induction fs with
  | nil =>
      intro acc
      constructor
      · constructor
        · rintro ⟨e, he⟩; cases he
        · rintro ⟨f, hf, _⟩; cases hf
      · intro e he; cases he
  | cons f fs ih =>
      intro acc
      cases hdc : f.dc with
      | none =>
          have hstep : sumLoop (f :: fs) acc = .error sumErrorMsg := by
            simp [sumLoop, hdc]
          refine ⟨⟨fun _ => ⟨f, List.mem_cons_self f fs, by rw [Factor.isMixture, hdc]⟩,
            fun _ => ⟨sumErrorMsg, hstep⟩⟩, ?_⟩
          intro e he
          rw [hstep] at he
          injection he with he
          exact he.symm
      | some part =>
          cases part with
          | plainDC ks =>
              have hstep : sumLoop (f :: fs) acc = .error sumErrorMsg := by
                simp [sumLoop, hdc]
              refine ⟨⟨fun _ => ⟨f, List.mem_cons_self f fs, by rw [Factor.isMixture, hdc]⟩,
                fun _ => ⟨sumErrorMsg, hstep⟩⟩, ?_⟩
              intro e he
              rw [hstep] at he
              injection he with he
              exact he.symm
          | mixtureP t =>
              have hstep : sumLoop (f :: fs) acc = sumLoop fs (acc.addMixture t) := by
                simp [sumLoop, hdc]
              have hfm : f.isMixture = true := by rw [Factor.isMixture, hdc]
              obtain ⟨ih1, ih2⟩ := ih (acc.addMixture t)
              constructor
              · rw [hstep, ih1]
                constructor
                · rintro ⟨x, hx, hxm⟩; exact ⟨x, List.mem_cons_of_mem f hx, hxm⟩
                · rintro ⟨x, hx, hxm⟩
                  rcases List.mem_cons.mp hx with h | h
                  · rw [h, hfm] at hxm; cases hxm
                  · exact ⟨x, h, hxm⟩
              · intro e he
                rw [hstep] at he
                exact ih2 e he

/-- C2: `sum()` fails exactly when some entry of the DC sub-collection is
not a `DCGaussianMixtureFactor`; every failure carries the
unsupported-factor-kind message, and a successful return means every entry
was a mixture. -/
theorem sum_fails_iff_non_mixture (g : HybridFactorGraph) :
    ((∃ e, g.sum = .error e) ↔ ∃ f ∈ g.dcGraph_, f.isMixture = false) ∧
    (∀ e, g.sum = .error e → e = sumErrorMsg) ∧
    (∀ t, g.sum = .ok t → ∀ f ∈ g.dcGraph_, f.isMixture = true) := by
  obtain ⟨h1, h2⟩ := sumLoop_error_iff g.dcGraph_ Sum.empty
  refine ⟨h1, h2, ?_⟩
  intro t ht f hf
  by_contra hfm
  have hfm' : f.isMixture = false := by
    cases hm : f.isMixture
    · rfl
    · exact absurd hm hfm
  obtain ⟨e, he⟩ := h1.mpr ⟨f, hf, hfm'⟩
  rw [show g.sum = sumLoop g.dcGraph_ Sum.empty from rfl] at ht
  rw [ht] at he
  cases he

/-- Witness for C2: on a container whose DC sub-collection holds a
non-mixture DC factor, `sum()` fails with the unsupported-factor-kind
message. -/
theorem sum_fails_iff_non_mixture_witness :
    ∃ e, gBad.sum = .error e :=
  (sum_fails_iff_non_mixture gBad).1.mpr
    ⟨plainDcFactor, List.mem_cons_self plainDcFactor [], rfl⟩

theorem linearize_loop_eq_map (p : Values) :
    ∀ (fs acc : List Factor),
      fs.foldl (fun acc f =>
          if f.isMixture = true then acc ++ [f] else acc ++ [f.linearizeAt p]) acc
        = acc ++ fs.map (fun f => if f.isMixture = true then f else f.linearizeAt p) := by
  intro fs
  induction fs with
  | nil => intro acc; simp
  | cons f fs ih =>
      intro acc
      rw [List.foldl_cons, ih, List.map_cons]
      have hstep : (if f.isMixture = true then acc ++ [f] else acc ++ [f.linearizeAt p])
          = acc ++ [if f.isMixture = true then f else f.linearizeAt p] := by
        split <;> rfl
      rw [hstep, List.append_assoc]
      rfl

/-- C6: `linearize(point)` builds a new container in which every
`DCGaussianMixtureFactor` of the DC sub-collection is passed through
unchanged and every other DC factor is replaced by its linearization at
the point, preserving the DC sub-collection's size and order, while the
discrete sub-collection is carried over unchanged and the continuous
sub-collection is linearized element-wise. -/
theorem linearize_preserves_structure (g : HybridFactorGraph) (p : Values) :
    (g.linearize p).dcGraph_
        = g.dcGraph_.map (fun f => if f.isMixture = true then f else f.linearizeAt p) ∧
    (g.linearize p).dcGraph_.length = g.dcGraph_.length ∧
    (g.linearize p).discreteGraph_ = g.discreteGraph_ ∧
    (g.linearize p).factorGraph_ = g.factorGraph_.map (Factor.linearizeCont · p) := by
  have hdc : (g.linearize p).dcGraph_
      = g.dcGraph_.map (fun f => if f.isMixture = true then f else f.linearizeAt p) := by
    show g.dcGraph_.foldl _ [] = _
    rw [linearize_loop_eq_map p g.dcGraph_ []]
    rfl
  exact ⟨hdc, by rw [hdc, List.length_map], rfl, rfl⟩

theorem graphEquals_iff_elementwise (xs ys : List Factor) (tol : Rat) :
    graphEquals xs ys tol ↔ specElementwiseEqual xs ys tol := by
  unfold graphEquals specElementwiseEqual
  exact List.forall₂_iff_get

theorem equalsTol_refl (f : Factor) (tol : Rat) (h : 0 ≤ tol) : f.equalsTol f tol := by
  refine ⟨rfl, by simpa using h, rfl, rfl, ?_⟩
  cases hdc : f.dc with
  | none => exact trivial
  | some part =>
      cases part with
      | mixtureP t => exact ⟨rfl, fun a => ⟨rfl, by simpa using h⟩⟩
      | plainDC ks => exact rfl

theorem elementwiseEqual_refl (xs : List Factor) (tol : Rat) (h : 0 ≤ tol) :
    specElementwiseEqual xs xs tol := by
  rw [← graphEquals_iff_elementwise]
  exact List.forall₂_same.mpr fun x _ => equalsTol_refl x tol h

/-- C8 counterexample: two containers built by pushing the same discrete
factor and the same DC factor in opposite orders have pairwise equal typed
sub-collections under tolerance `0`, yet `equals` returns false, because
it also compares the inherited flat lists, whose orders differ. -/
theorem equals_not_determined_by_subcollections :
    specSubCollectionsEqual gOrderA gOrderB 0 ∧
      ¬ HybridFactorGraph.equals gOrderA gOrderB 0 := by
  constructor
  · exact ⟨elementwiseEqual_refl [discFactor] 0 le_rfl,
      elementwiseEqual_refl [plainDcFactor] 0 le_rfl,
      elementwiseEqual_refl [] 0 le_rfl⟩
  · intro h
    have hb : graphEquals [plainDcFactor, discFactor] [discFactor, plainDcFactor] 0 := h.1
    cases hb with
    | cons h1 h2 => exact absurd h1.1 (by decide)

/-- C8 amended: `equals(other, tolerance)` returns true if and only if the
three typed sub-collections AND the inherited flat factor list are
pairwise equal under the tolerance, element-wise in insertion order with
matching sizes. -/
theorem equals_iff_base_and_subcollections (g1 g2 : HybridFactorGraph) (tol : Rat) :
    g1.equals g2 tol
      ↔ specElementwiseEqual g1.base g2.base tol ∧
          specSubCollectionsEqual g1 g2 tol := by
  unfold HybridFactorGraph.equals specSubCollectionsEqual
  simp only [graphEquals_iff_elementwise]

end gtsam
